import Mathlib

/-!
Verification of the UEGitPlugin revision-control integration layer
(GAME259_2024_Winter_A, Plugins/UEGitPlugin-3.15).

The visible source is the facade header
`Source/GitSourceControl/Private/GitSourceControlModule.h`; the engine
components behind it (State Cache, Operation Queue / Dispatcher, Lock
Registry, Error Sink, batching) are modelled from the specification where
their code is not part of the visible source, as indicated on each
definition.
-/

namespace GitSourceControl

/-! ## File states (spec section 3, Data model) -/

/-- Modelled from the spec: the per-file `status` enumeration of a File
State record (the status-parsing code is not in the visible source). -/
inductive FileStatus
  | Unknown
  | Unmodified
  | Added
  | Modified
  | Deleted
  | Renamed
  | Conflicted
  | Untracked
  | Ignored
deriving DecidableEq, Repr

/-- Modelled from the spec: the `lockState` field of a File State record
(the lock-state tracking code is not in the visible source). -/
inductive LockState
  | Unlocked
  | LockedByMe
  | LockedByOther (owner : String)
deriving DecidableEq, Repr

/-- Modelled from the spec: a File State record, one per tracked path
(the cache record type is not in the visible source). -/
structure FileState where
  path : String
  status : FileStatus
  lockState : LockState
  lastKnownRevision : String
  stale : Bool
deriving DecidableEq, Repr

/-! ## Batch splitting (C1): spec sections 4.3 and 6, batch limit 50 -/

/-- Modelled from the spec: the maximum number of paths the external tool
accepts per invocation (the splitting code is not in the visible source;
the header only documents "cannot handle atomically more than 50 files"). -/
def batchLimit : Nat := 50

/-- Modelled from the spec: split a request into sequential batches of at
most 50 paths each (the splitting code is not in the visible source). -/
def splitBatches {α : Type} : List α → List (List α)
  | [] => []
  | x :: xs => (x :: xs.take 49) :: splitBatches (xs.drop 49)
termination_by l => l.length
decreasing_by
  simp [List.length_drop]
  omega

/-- Modelled from the spec: a single unbounded status-query invocation of
the external tool, reporting the repository status of every requested path
(the process-runner code is not in the visible source). -/
def runStatusTool (repo : String → FileStatus) (paths : List String) :
    List (String × FileStatus) :=
  paths.map (fun p => (p, repo p))

/-- Modelled from the spec: `refresh` splits a large request into batches
of at most 50 paths, invokes the external tool once per batch, and merges
the per-batch results in order (the batching code is not in the visible
source). -/
def refreshBatched (repo : String → FileStatus) (paths : List String) :
    List (String × FileStatus) :=
  ((splitBatches paths).map (runStatusTool repo)).flatten

theorem splitBatches_length {α : Type} (l : List α) :
    (splitBatches l).length = (l.length + 49) / 50 := by
  induction l using splitBatches.induct with
  | case1 => simp [splitBatches]
  | case2 x xs ih =>
    simp only [splitBatches, List.length_cons, ih, List.length_drop]
    omega

theorem splitBatches_le {α : Type} (l : List α) :
    ∀ b ∈ splitBatches l, b.length ≤ 50 := by
  induction l using splitBatches.induct with
  | case1 => simp [splitBatches]
  | case2 x xs ih =>
    intro b hb
    simp only [splitBatches, List.mem_cons] at hb
    rcases hb with h | h
    · subst h
      simp only [List.length_cons, List.length_take]
      omega
    · exact ih b h

theorem splitBatches_join {α : Type} (l : List α) :
    (splitBatches l).flatten = l := by
  induction l using splitBatches.induct with
  | case1 => simp [splitBatches]
  | case2 x xs ih =>
    simp only [splitBatches, List.flatten_cons, ih]
    simp [List.take_append_drop]

/-- Claim C1: for a refresh over N > 50 target paths, the system performs
exactly ceil(N/50) external-tool invocations, each with at most 50 paths,
and the merged result equals the result of a single unbounded invocation
over all N paths. -/
theorem refresh_batch_split (repo : String → FileStatus)
    (paths : List String) (h : 50 < paths.length) :
    (splitBatches paths).length = (paths.length + 49) / 50 ∧
    (∀ b ∈ splitBatches paths, b.length ≤ 50) ∧
    refreshBatched repo paths = runStatusTool repo paths := by
  refine ⟨splitBatches_length paths, splitBatches_le paths, ?_⟩
  unfold refreshBatched runStatusTool
  rw [← List.map_flatten, splitBatches_join]

/-- Witness for C1 at a concrete request of 51 paths. -/
theorem refresh_batch_split_witness :
    50 < (List.replicate 51 "p").length ∧
    ((splitBatches (List.replicate 51 "p")).length =
        ((List.replicate 51 "p").length + 49) / 50 ∧
      (∀ b ∈ splitBatches (List.replicate 51 "p"), b.length ≤ 50) ∧
      refreshBatched (fun _ => FileStatus.Unmodified) (List.replicate 51 "p") =
        runStatusTool (fun _ => FileStatus.Unmodified) (List.replicate 51 "p")) :=
  ⟨by decide, refresh_batch_split (fun _ => FileStatus.Unmodified)
    (List.replicate 51 "p") (by decide)⟩

/-! ## Error Sink (C5): spec section 4.2 -/

/-- Modelled from the spec: the Error Sink state, a process-wide holder of
the most recent error message set (only the `SetLastErrors` declaration is
in the visible source; its body is not). -/
def ErrorSink : Type := List String

/-- Modelled from the spec: `setLastErrors(messages)` overwrites the sink
with the given message set, last-write-wins (body not in the visible
source). -/
def setLastErrors (_sink : ErrorSink) (messages : List String) : ErrorSink :=
  messages

/-- Modelled from the spec: `getLastErrors()` reads the current message
set (body not in the visible source). -/
def getLastErrors (sink : ErrorSink) : List String :=
  sink

/-- Modelled from the spec: an interleaving of `setLastErrors` calls,
applied in order to an initial sink state. -/
def applysetLastErrorsCalls (calls : List (List String)) (sink : ErrorSink) :
    ErrorSink :=
  calls.foldl setLastErrors sink

theorem applysetLastErrorsCalls_eq_getLastD (calls : List (List String))
    (d : List String) : applysetLastErrorsCalls calls d = calls.getLastD d := by
  induction calls generalizing d with
  | nil => rfl
  | cons m rest ih =>
    rw [List.getLastD_cons]
    simpa [applysetLastErrorsCalls, setLastErrors] using ih m

/-- Claim C5: after any interleaving of `setLastErrors` calls,
`getLastErrors` returns exactly the message set of the most recent call
(last-write-wins), and the sink holds exactly that one message set, never
a history. -/
theorem errorSink_last_write_wins (calls : List (List String))
    (sink : ErrorSink) (h : calls ≠ []) :
    getLastErrors (applysetLastErrorsCalls calls sink) = calls.getLast h ∧
    applysetLastErrorsCalls calls sink = calls.getLast h := by
  cases calls with
  | nil => exact absurd rfl h
  | cons m rest =>
    have hmain : applysetLastErrorsCalls (m :: rest) sink =
        (m :: rest).getLast h := by
      rw [applysetLastErrorsCalls_eq_getLastD, List.getLast_eq_getLastD,
        List.getLastD_cons]
    exact ⟨hmain, hmain⟩

/-- Witness for C5 at a concrete interleaving of two calls. -/
theorem errorSink_last_write_wins_witness :
    ([["e1"], ["e2"]] : List (List String)) ≠ [] ∧
    getLastErrors (applysetLastErrorsCalls [["e1"], ["e2"]] []) =
        ([["e1"], ["e2"]] : List (List String)).getLast (by decide) ∧
    applysetLastErrorsCalls [["e1"], ["e2"]] [] =
        ([["e1"], ["e2"]] : List (List String)).getLast (by decide) :=
  ⟨by decide, errorSink_last_write_wins [["e1"], ["e2"]] [] (by decide)⟩

/-! ## State Cache (C6, C7): spec section 4.3 -/

/-- Modelled from the spec: the State Cache, a mapping from
repository-relative path to the File State record, absent when the path
has never been observed (the cache code is not in the visible source). -/
def StateCache : Type := String → Option FileState

/-- Modelled from the spec: the record reported for a path with no cached
entry, carrying `Unknown` status. -/
def unknownState (p : String) : FileState :=
  { path := p
    status := FileStatus.Unknown
    lockState := LockState.Unlocked
    lastKnownRevision := ""
    stale := false }

/-- Modelled from the spec: `get(path)` returns the cached record, or an
`Unknown`-status record if absent (the cache code is not in the visible
source). -/
def StateCache.get (c : StateCache) (p : String) : FileState :=
  (c p).getD (unknownState p)

/-- Claim C6: if the State Cache holds no record for a path then `get`
returns a File State with `Unknown` status; otherwise `get` returns the
cached record unchanged. -/
theorem stateCache_get_spec (c : StateCache) (p : String) :
    (c p = none → (c.get p).status = FileStatus.Unknown) ∧
    (∀ r : FileState, c p = some r → c.get p = r) := by
  constructor
  · intro h
    simp [StateCache.get, h, unknownState]
  · intro r h
    simp [StateCache.get, h]

/-- A concrete cache used by the C6 witness: empty at "a.uasset", holding
a `Modified` record at "b.uasset". -/
def exampleCache : StateCache :=
  fun q => if q = "b.uasset" then
    some { unknownState "b.uasset" with status := FileStatus.Modified }
  else none

/-- Witness for C6 at the concrete cache `exampleCache`. -/
theorem stateCache_get_spec_witness :
    (StateCache.get exampleCache "a.uasset").status = FileStatus.Unknown ∧
    StateCache.get exampleCache "b.uasset" =
      { unknownState "b.uasset" with status := FileStatus.Modified } := by
  constructor
  · exact (stateCache_get_spec exampleCache "a.uasset").1 (by
      simp [exampleCache])
  · exact (stateCache_get_spec exampleCache "b.uasset").2 _ (by
      simp [exampleCache])

/-- Modelled from the spec: the record written for path `p` on a
successful refresh: `status` is taken from the external tool's report and
`stale` is cleared, the other fields of the prior record are kept (the
refresh code is not in the visible source). -/
def refreshedRecord (repo : String → FileStatus) (old : FileState)
    (p : String) : FileState :=
  { old with status := repo p, stale := false }

/-- Modelled from the spec: `refresh(paths)` queries the external tool for
the given paths and updates their cache records; other paths are left
untouched (the refresh code is not in the visible source). -/
def refreshCache (repo : String → FileStatus) (c : StateCache)
    (paths : List String) : StateCache :=
  fun q => if q ∈ paths then some (refreshedRecord repo (c.get q) q) else c q

/-- Claim C7: with no intervening mutation (the repository unchanged),
refreshing twice in a row yields exactly the File State records of a
single refresh: refresh is idempotent. -/
theorem refreshCache_idempotent (repo : String → FileStatus)
    (c : StateCache) (paths : List String) :
    refreshCache repo (refreshCache repo c paths) paths =
      refreshCache repo c paths := by
  funext q
  by_cases hq : q ∈ paths
  · simp [refreshCache, hq, StateCache.get, refreshedRecord]
  · simp [refreshCache, hq]

/-! ## Lock Registry (C4): spec section 4.4 -/

/-- Modelled from the spec: the Lock Registry, mapping a path to the
identity of its exclusive owner, absent when unlocked (the lock-registry
code is not in the visible source). -/
def LockRegistry : Type := String → Option String

/-- Modelled from the spec: the per-path outcome of a lock operation,
either success or a per-path `LockDeniedError`. -/
inductive LockResult
  | Succeeded
  | LockDeniedError
deriving DecidableEq, Repr

/-- Modelled from the spec: attempt to take the exclusive lock on one
path: denied if another owner already holds it, otherwise the registry
records the caller as owner (the locking code is not in the visible
source). -/
def lockOne (me : String) (reg : LockRegistry) (p : String) :
    LockResult × LockRegistry :=
  match reg p with
  | some owner =>
    if owner = me then (LockResult.Succeeded, reg)
    else (LockResult.LockDeniedError, reg)
  | none => (LockResult.Succeeded, fun q => if q = p then some me else reg q)

/-- Modelled from the spec: `lock(paths)` processes the paths in order,
collecting a per-path result list and threading the registry through (the
locking code is not in the visible source). -/
def lockPaths (me : String) (reg : LockRegistry) :
    List String → List (String × LockResult) × LockRegistry
  | [] => ([], reg)
  | p :: ps =>
    let step := lockOne me reg p
    let rest := lockPaths me step.2 ps
    ((p, step.1) :: rest.1, rest.2)

/-- Modelled from the spec: the `lockState` the registry reports for a
path, from the caller's point of view. -/
def lockStateOf (me : String) (reg : LockRegistry) (p : String) : LockState :=
  match reg p with
  | none => LockState.Unlocked
  | some o => if o = me then LockState.LockedByMe else LockState.LockedByOther o

/-- Whether the registry already has another owner holding the lock on
`p`, which is exactly the per-path denial condition of the spec. -/
def deniedAt (me : String) (reg : LockRegistry) (p : String) : Bool :=
  match reg p with
  | some o => o != me
  | none => false

theorem deniedAt_iff (me : String) (reg : LockRegistry) (p : String) :
    deniedAt me reg p = true ↔ ∃ o, reg p = some o ∧ o ≠ me := by
  unfold deniedAt
  cases h : reg p with
  | none => simp
  | some o => simp [bne_iff_ne]

theorem lockPaths_spec (me : String) (ps : List String) (reg : LockRegistry) :
    (lockPaths me reg ps).1 =
      ps.map (fun p =>
        (p, if deniedAt me reg p then LockResult.LockDeniedError
            else LockResult.Succeeded)) ∧
    (lockPaths me reg ps).2 =
      fun q => if reg q = none ∧ q ∈ ps then some me else reg q := by
  induction ps generalizing reg with
  | nil =>
    refine ⟨rfl, funext fun q => ?_⟩
    simp [lockPaths]
  | cons p ps ih =>
    cases h : reg p with
    | some o =>
      by_cases ho : o = me
      · have hstep : lockOne me reg p = (LockResult.Succeeded, reg) := by
          simp [lockOne, h, ho]
        have hden : deniedAt me reg p = false := by
          simp [deniedAt, h, ho]
        refine ⟨?_, ?_⟩
        · simp only [lockPaths, hstep, List.map_cons, hden]
          exact congrArg _ (ih reg).1
        · rw [show (lockPaths me reg (p :: ps)).2 = (lockPaths me reg ps).2 by
            simp [lockPaths, hstep]]
          rw [(ih reg).2]
          funext q
          by_cases hq : q = p
          · subst hq
            simp [h]
          · simp [hq]
      · have hstep : lockOne me reg p = (LockResult.LockDeniedError, reg) := by
          simp [lockOne, h, ho]
        have hden : deniedAt me reg p = true := by
          simp [deniedAt, h, bne_iff_ne, ho]
        refine ⟨?_, ?_⟩
        · simp only [lockPaths, hstep, List.map_cons, hden]
          exact congrArg _ (ih reg).1
        · rw [show (lockPaths me reg (p :: ps)).2 = (lockPaths me reg ps).2 by
            simp [lockPaths, hstep]]
          rw [(ih reg).2]
          funext q
          by_cases hq : q = p
          · subst hq
            simp [h]
          · simp [hq]
    | none =>
      have hstep : lockOne me reg p =
          (LockResult.Succeeded, fun q => if q = p then some me else reg q) := by
        simp [lockOne, h]
      have hden : deniedAt me reg p = false := by
        simp [deniedAt, h]
      have hsame : ∀ q, deniedAt me (fun q => if q = p then some me else reg q) q
          = deniedAt me reg q := by
        intro q
        by_cases hq : q = p
        · subst hq
          simp [deniedAt, h]
        · simp [deniedAt, hq]
      obtain ⟨ih1, ih2⟩ := ih (fun q => if q = p then some me else reg q)
      refine ⟨?_, ?_⟩
      · simp only [lockPaths, hstep, List.map_cons, hden]
        refine congrArg _ ?_
        rw [ih1]
        exact List.map_congr_left fun q _ => by rw [hsame q]
      · rw [show (lockPaths me reg (p :: ps)).2 =
            (lockPaths me (fun q => if q = p then some me else reg q) ps).2 by
          simp [lockPaths, hstep]]
        rw [ih2]
        funext q
        by_cases hq : q = p
        · subst hq
          simp [h]
        · simp only [hq, if_false, List.mem_cons]
          by_cases hmem : q ∈ ps <;> simp [hmem, hq]

/-- Claim C4: a lock operation over a sequence of paths reports per-path
results (one result per requested path, in order): a path already locked
by another owner fails with `LockDeniedError`, every other path succeeds;
afterwards, among the requested paths the registry reports `LockedByMe`
exactly for the succeeded ones, and paths outside the request are
untouched. -/
theorem lock_partial_success (me : String) (reg : LockRegistry)
    (paths : List String) :
    ((lockPaths me reg paths).1.map Prod.fst = paths) ∧
    (∀ p r, (p, r) ∈ (lockPaths me reg paths).1 →
      (r = LockResult.LockDeniedError ↔ ∃ o, reg p = some o ∧ o ≠ me)) ∧
    (∀ p ∈ paths,
      (lockStateOf me (lockPaths me reg paths).2 p = LockState.LockedByMe ↔
        (p, LockResult.Succeeded) ∈ (lockPaths me reg paths).1)) ∧
    (∀ q, q ∉ paths → (lockPaths me reg paths).2 q = reg q) := by
  obtain ⟨h1, h2⟩ := lockPaths_spec me paths reg
  refine ⟨?_, ?_, ?_, ?_⟩
  · rw [h1, List.map_map]
    exact List.map_id'' (fun x => rfl) paths
  · intro p r hmem
    rw [h1] at hmem
    simp only [List.mem_map] at hmem
    obtain ⟨p0, _, heq⟩ := hmem
    have hfst : p0 = p := congrArg Prod.fst heq
    have hsnd : (if deniedAt me reg p0 then LockResult.LockDeniedError
        else LockResult.Succeeded) = r := congrArg Prod.snd heq
    subst hfst
    rw [← hsnd, ← deniedAt_iff]
    by_cases hd : deniedAt me reg p0 <;> simp [hd]
  · intro p hp
    rw [h1, h2]
    simp only [List.mem_map]
    constructor
    · intro hlk
      refine ⟨p, hp, ?_⟩
      cases hrp : reg p with
      | none => simp [deniedAt, hrp]
      | some o =>
        by_cases ho : o = me
        · simp [deniedAt, hrp, ho]
        · exfalso
          rw [lockStateOf] at hlk
          simp only [hrp, hp, and_true] at hlk
          simp [ho] at hlk
    · rintro ⟨p0, hp0, heq⟩
      have hpp : p0 = p := congrArg Prod.fst heq
      subst hpp
      have hre : (if deniedAt me reg p0 then LockResult.LockDeniedError
          else LockResult.Succeeded) = LockResult.Succeeded :=
        congrArg Prod.snd heq
      have hnd : deniedAt me reg p0 = false := by
        by_cases hd : deniedAt me reg p0
        · simp [hd] at hre
        · simpa using hd
      rw [lockStateOf]
      cases hrp : reg p0 with
      | none => simp [hrp, hp]
      | some o =>
        have ho : o = me := by
          by_contra hom
          have : deniedAt me reg p0 = true :=
            (deniedAt_iff me reg p0).mpr ⟨o, hrp, hom⟩
          rw [this] at hnd
          exact Bool.noConfusion hnd
        simp [hrp, ho]
  · intro q hq
    rw [h2]
    simp [hq]

/-- A concrete registry used by the C4 witness: "b.uasset" already locked
by another owner, everything else free. -/
def exampleRegistry : LockRegistry :=
  fun q => if q = "b.uasset" then some "other" else none

/-- Witness for C4 at the spec's concrete example: locking "a.uasset" and
"b.uasset" with "b.uasset" held by another owner. -/
theorem lock_partial_success_witness :
    ("a.uasset" ∈ ["a.uasset", "b.uasset"]) ∧
    lockStateOf "me" (lockPaths "me" exampleRegistry
        ["a.uasset", "b.uasset"]).2 "a.uasset" = LockState.LockedByMe ∧
    (lockPaths "me" exampleRegistry ["a.uasset", "b.uasset"]).1 =
      [("a.uasset", LockResult.Succeeded),
       ("b.uasset", LockResult.LockDeniedError)] :=
  ⟨by decide,
   ((lock_partial_success "me" exampleRegistry
      ["a.uasset", "b.uasset"]).2.2.1 "a.uasset" (by decide)).mpr (by
        simp [lockPaths, lockOne, exampleRegistry]),
   by simp [lockPaths, lockOne, exampleRegistry]⟩

/-! ## Operation Queue / Dispatcher (C2, C3, C8): spec sections 4.5, 5 -/

/-- Modelled from the spec: the per-Operation state machine
`Pending -> Running -> Succeeded | Failed | Cancelled` (the dispatcher
code is not in the visible source). -/
inductive OpState
  | Pending
  | Running
  | Succeeded
  | Failed
  | Cancelled
deriving DecidableEq, Repr

/-- Whether an operation state is terminal (no transition out). -/
def OpState.isTerminal : OpState → Bool
  | OpState.Succeeded => true
  | OpState.Failed => true
  | OpState.Cancelled => true
  | _ => false

/-- Modelled from the spec: an Operation as tracked by the dispatcher,
with its state, whether it ever started executing, and how many times its
`onComplete` callback has been invoked (the dispatcher code is not in the
visible source). -/
structure Operation where
  opId : Nat
  state : OpState
  executed : Bool
  callbackCount : Nat
deriving DecidableEq, Repr

/-- Modelled from the spec: the Operation Queue / Dispatcher state, the
ordered list of operations it has accepted (the dispatcher code is not in
the visible source). -/
structure Dispatcher where
  ops : List Operation
deriving DecidableEq, Repr

/-- Number of operations of a list currently in the `Running` state. -/
def runCount (l : List Operation) : Nat :=
  (l.filter (fun o => o.state == OpState.Running)).length

/-- Number of operations of the dispatcher currently `Running`. -/
def Dispatcher.countRunning (d : Dispatcher) : Nat :=
  runCount d.ops

/-- Modelled from the spec: a caller submits a new operation, appended in
FIFO order as `Pending`, never yet executed, callback not yet invoked. -/
def Dispatcher.submit (d : Dispatcher) (i : Nat) : Dispatcher :=
  ⟨d.ops ++ [⟨i, OpState.Pending, false, 0⟩]⟩

/-- Start the first `Pending` operation of the list, marking it
`Running` and executed. -/
def startFirstPending : List Operation → List Operation
  | [] => []
  | o :: rest =>
    if o.state = OpState.Pending then
      { o with state := OpState.Running, executed := true } :: rest
    else o :: startFirstPending rest

/-- Modelled from the spec: the worker picks up the next `Pending`
operation in FIFO order, but only when no operation is `Running`
(single-flight rule; the dispatcher code is not in the visible source). -/
def Dispatcher.startNext (d : Dispatcher) : Dispatcher :=
  if d.countRunning = 0 then ⟨startFirstPending d.ops⟩ else d

/-- Completion of one operation: the `Running` operation reaches
`Succeeded` or `Failed` and its `onComplete` callback fires once. -/
def finishOp (ok : Bool) (o : Operation) : Operation :=
  if o.state = OpState.Running then
    { o with
      state := if ok then OpState.Succeeded else OpState.Failed,
      callbackCount := o.callbackCount + 1 }
  else o

/-- Modelled from the spec: the external process of the `Running`
operation finishes and the operation reaches its terminal state (the
dispatcher code is not in the visible source). -/
def Dispatcher.finishRunning (d : Dispatcher) (ok : Bool) : Dispatcher :=
  ⟨d.ops.map (finishOp ok)⟩

/-- Cancellation of one operation: a `Pending` operation goes directly to
`Cancelled` and its `onComplete` callback fires once; any other operation
(in particular the `Running` one) is left alone. -/
def cancelOp (o : Operation) : Operation :=
  if o.state = OpState.Pending then
    { o with state := OpState.Cancelled, callbackCount := o.callbackCount + 1 }
  else o

/-- Modelled from the spec: a cancel/shutdown request drains the queue,
transitioning every `Pending` operation directly to `Cancelled` without
execution; the `Running` operation is allowed to finish (the dispatcher
code is not in the visible source). -/
def Dispatcher.cancelPending (d : Dispatcher) : Dispatcher :=
  ⟨d.ops.map cancelOp⟩

/-- Modelled from the spec: the dispatcher transition relation — a caller
submits, the worker starts the next operation, the running operation
finishes, or the queue is cancelled. -/
inductive Step : Dispatcher → Dispatcher → Prop
  | submit (d : Dispatcher) (i : Nat) : Step d (d.submit i)
  | start (d : Dispatcher) : Step d d.startNext
  | finish (d : Dispatcher) (ok : Bool) : Step d (d.finishRunning ok)
  | cancel (d : Dispatcher) : Step d d.cancelPending

/-- Modelled from the spec: the reachable dispatcher states, from the
empty queue. -/
inductive Reachable : Dispatcher → Prop
  | init : Reachable ⟨[]⟩
  | step {d d' : Dispatcher} : Reachable d → Step d d' → Reachable d'

theorem runCount_append (l1 l2 : List Operation) :
    runCount (l1 ++ l2) = runCount l1 + runCount l2 := by
  simp [runCount, List.filter_append]

theorem runCount_startFirstPending (l : List Operation) :
    runCount (startFirstPending l) ≤ runCount l + 1 := by
  induction l with
  | nil => simp [startFirstPending, runCount]
  | cons o rest ih =>
    by_cases ho : o.state = OpState.Pending
    · simp only [startFirstPending, ho, if_true, runCount, List.filter_cons]
      simp only [runCount] at *
      simp [ho]
    · simp only [startFirstPending, ho, if_false, runCount, List.filter_cons]
      simp only [runCount] at ih
      by_cases hr : o.state == OpState.Running <;> simp [hr] <;> omega

theorem finishOp_state_ne (ok : Bool) (o : Operation) :
    (finishOp ok o).state ≠ OpState.Running := by
  unfold finishOp
  by_cases h : o.state = OpState.Running
  · cases ok <;> simp [h]
  · simp [h]

theorem runCount_map_finish (ok : Bool) (l : List Operation) :
    runCount (l.map (finishOp ok)) = 0 := by
  induction l with
  | nil => simp [runCount]
  | cons o rest ih =>
    simp only [List.map_cons, runCount, List.filter_cons] at *
    have := finishOp_state_ne ok o
    simp [this, ih]

theorem cancelOp_running (o : Operation) :
    ((cancelOp o).state == OpState.Running) = (o.state == OpState.Running) := by
  unfold cancelOp
  by_cases h : o.state = OpState.Pending
  · simp [h]
  · simp [h]

theorem runCount_map_cancel (l : List Operation) :
    runCount (l.map cancelOp) = runCount l := by
  induction l with
  | nil => rfl
  | cons o rest ih =>
    simp only [List.map_cons, runCount, List.filter_cons] at *
    rw [cancelOp_running]
    by_cases hr : o.state == OpState.Running <;> simp [hr, ih]

theorem step_countRunning (d d2 : Dispatcher) (hs : Step d d2)
    (ih : d.countRunning ≤ 1) : d2.countRunning ≤ 1 := by
  cases hs with
  | submit i =>
    simp only [Dispatcher.countRunning, Dispatcher.submit, runCount_append]
    have h1 : runCount [⟨i, OpState.Pending, false, 0⟩] = 0 := by
      simp [runCount]
    simp only [Dispatcher.countRunning] at ih
    omega
  | start =>
    by_cases h0 : d.countRunning = 0
    · unfold Dispatcher.startNext
      rw [if_pos h0]
      have := runCount_startFirstPending d.ops
      simp only [Dispatcher.countRunning] at h0 ⊢
      omega
    · unfold Dispatcher.startNext
      rw [if_neg h0]
      exact ih
  | finish ok =>
    simp [Dispatcher.countRunning, Dispatcher.finishRunning,
      runCount_map_finish]
  | cancel =>
    simpa [Dispatcher.countRunning, Dispatcher.cancelPending,
      runCount_map_cancel] using ih

/-- Claim C2: in every reachable dispatcher state, at most one Operation
is `Running`, however many operations were submitted. -/
theorem single_running_invariant (d : Dispatcher) (h : Reachable d) :
    d.countRunning ≤ 1 := by
  induction h with
  | init => simp [Dispatcher.countRunning, runCount]
  | step hr hs ih => exact step_countRunning _ _ hs ih

/-- Witness for C2 on the reachable state obtained by submitting one
operation and starting it. -/
theorem single_running_invariant_witness :
    Reachable (((Dispatcher.mk []).submit 7).startNext) ∧
    (((Dispatcher.mk []).submit 7).startNext).countRunning ≤ 1 :=
  have hr : Reachable (((Dispatcher.mk []).submit 7).startNext) :=
    Reachable.step (Reachable.step Reachable.init (Step.submit _ 7))
      (Step.start _)
  ⟨hr, single_running_invariant _ hr⟩

/-- Claim C3: from a queue holding A `Running` and B, C `Pending`, a
cancel/shutdown request moves B and C directly to `Cancelled` without
executing them while leaving A `Running`; A is then allowed to finish and
completes normally (`Succeeded`). -/
theorem cancel_drains_pending (d : Dispatcher) (a b c : Operation)
    (hops : d.ops = [a, b, c])
    (ha : a.state = OpState.Running)
    (hb : b.state = OpState.Pending)
    (hc : c.state = OpState.Pending)
    (hbe : b.executed = false)
    (hce : c.executed = false) :
    ∃ a1 b1 c1, d.cancelPending.ops = [a1, b1, c1] ∧
      a1 = a ∧ a1.state = OpState.Running ∧
      b1.state = OpState.Cancelled ∧ c1.state = OpState.Cancelled ∧
      b1.executed = false ∧ c1.executed = false ∧
      ∃ a2 b2 c2, (d.cancelPending.finishRunning true).ops = [a2, b2, c2] ∧
        a2.state = OpState.Succeeded ∧
        b2.state = OpState.Cancelled ∧ c2.state = OpState.Cancelled ∧
        b2.executed = false ∧ c2.executed = false := by
  have hca : cancelOp a = a := by
    simp [cancelOp, ha]
  have hcb : cancelOp b =
      { b with
        state := OpState.Cancelled
        callbackCount := b.callbackCount + 1 } := by
    simp [cancelOp, hb]
  have hcc : cancelOp c =
      { c with
        state := OpState.Cancelled
        callbackCount := c.callbackCount + 1 } := by
    simp [cancelOp, hc]
  have hfa : finishOp true a =
      { a with
        state := OpState.Succeeded
        callbackCount := a.callbackCount + 1 } := by
    simp [finishOp, ha]
  refine ⟨a, cancelOp b, cancelOp c, ?_, rfl, ha, ?_, ?_, ?_, ?_,
    finishOp true a, cancelOp b, cancelOp c, ?_, ?_, ?_, ?_, ?_, ?_⟩
  · simp [Dispatcher.cancelPending, hops, hca]
  · rw [hcb]
  · rw [hcc]
  · rw [hcb]
    exact hbe
  · rw [hcc]
    exact hce
  · have hfb : finishOp true (cancelOp b) = cancelOp b := by
      rw [hcb]
      simp [finishOp]
    have hfc : finishOp true (cancelOp c) = cancelOp c := by
      rw [hcc]
      simp [finishOp]
    simp [Dispatcher.cancelPending, Dispatcher.finishRunning, hops, hca,
      hfb, hfc]
  · rw [hfa]
  · rw [hcb]
  · rw [hcc]
  · rw [hcb]
    exact hbe
  · rw [hcc]
    exact hce

/-- Operation A of the C3 witness trace: currently running. -/
def exampleOpA : Operation := ⟨0, OpState.Running, true, 0⟩

/-- Operation B of the C3 witness trace: pending, never executed. -/
def exampleOpB : Operation := ⟨1, OpState.Pending, false, 0⟩

/-- Operation C of the C3 witness trace: pending, never executed. -/
def exampleOpC : Operation := ⟨2, OpState.Pending, false, 0⟩

/-- The C3 witness queue: A running, B and C pending. -/
def exampleQueue : Dispatcher := ⟨[exampleOpA, exampleOpB, exampleOpC]⟩

/-- Witness for C3 at the concrete queue `exampleQueue`. -/
theorem cancel_drains_pending_witness :
    ∃ a1 b1 c1, exampleQueue.cancelPending.ops = [a1, b1, c1] ∧
      a1 = exampleOpA ∧ a1.state = OpState.Running ∧
      b1.state = OpState.Cancelled ∧ c1.state = OpState.Cancelled ∧
      b1.executed = false ∧ c1.executed = false ∧
      ∃ a2 b2 c2,
        (exampleQueue.cancelPending.finishRunning true).ops = [a2, b2, c2] ∧
        a2.state = OpState.Succeeded ∧
        b2.state = OpState.Cancelled ∧ c2.state = OpState.Cancelled ∧
        b2.executed = false ∧ c2.executed = false :=
  cancel_drains_pending exampleQueue exampleOpA exampleOpB exampleOpC
    rfl rfl rfl rfl rfl rfl

/-! ## Exactly-once completion callback (C8) -/

theorem callbackInv_cancelOp (o : Operation)
    (h : (o.state.isTerminal = true → o.callbackCount = 1) ∧
      (o.state.isTerminal = false → o.callbackCount = 0)) :
    ((cancelOp o).state.isTerminal = true → (cancelOp o).callbackCount = 1) ∧
    ((cancelOp o).state.isTerminal = false → (cancelOp o).callbackCount = 0)
    := by
  unfold cancelOp
  by_cases hp : o.state = OpState.Pending
  · have h0 : o.callbackCount = 0 := h.2 (by rw [hp]; rfl)
    simp [hp, OpState.isTerminal, h0]
  · simpa [hp] using h

theorem callbackInv_finishOp (ok : Bool) (o : Operation)
    (h : (o.state.isTerminal = true → o.callbackCount = 1) ∧
      (o.state.isTerminal = false → o.callbackCount = 0)) :
    ((finishOp ok o).state.isTerminal = true →
      (finishOp ok o).callbackCount = 1) ∧
    ((finishOp ok o).state.isTerminal = false →
      (finishOp ok o).callbackCount = 0) := by
  unfold finishOp
  by_cases hr : o.state = OpState.Running
  · have h0 : o.callbackCount = 0 := h.2 (by rw [hr]; rfl)
    cases ok <;> simp [hr, OpState.isTerminal, h0]
  · simpa [hr] using h

theorem callbackInv_startFirstPending (l : List Operation)
    (h : ∀ o ∈ l, (o.state.isTerminal = true → o.callbackCount = 1) ∧
      (o.state.isTerminal = false → o.callbackCount = 0)) :
    ∀ o ∈ startFirstPending l,
      (o.state.isTerminal = true → o.callbackCount = 1) ∧
      (o.state.isTerminal = false → o.callbackCount = 0) := by
  induction l with
  | nil => simp [startFirstPending]
  | cons o0 rest ih =>
    by_cases hp : o0.state = OpState.Pending
    · simp only [startFirstPending, hp, if_true]
      intro o ho
      rcases List.mem_cons.mp ho with rfl | hmem
      · have h0 : o0.callbackCount = 0 := (h o0 (by simp)).2 (by rw [hp]; rfl)
        simp [OpState.isTerminal, h0]
      · exact h o (by simp [hmem])
    · simp only [startFirstPending, hp, if_false]
      intro o ho
      rcases List.mem_cons.mp ho with rfl | hmem
      · exact h o (by simp)
      · exact ih (fun o2 ho2 => h o2 (by simp [ho2])) o hmem

theorem step_callbackInv (d d2 : Dispatcher) (hs : Step d d2)
    (ih : ∀ o ∈ d.ops, (o.state.isTerminal = true → o.callbackCount = 1) ∧
      (o.state.isTerminal = false → o.callbackCount = 0)) :
    ∀ o ∈ d2.ops, (o.state.isTerminal = true → o.callbackCount = 1) ∧
      (o.state.isTerminal = false → o.callbackCount = 0) := by
  cases hs with
  | submit i =>
    intro o ho
    simp only [Dispatcher.submit, List.mem_append, List.mem_singleton] at ho
    rcases ho with hmem | rfl
    · exact ih o hmem
    · simp [OpState.isTerminal]
  | start =>
    unfold Dispatcher.startNext
    by_cases h0 : d.countRunning = 0
    · rw [if_pos h0]
      exact callbackInv_startFirstPending d.ops ih
    · rw [if_neg h0]
      exact ih
  | finish ok =>
    intro o ho
    simp only [Dispatcher.finishRunning, List.mem_map] at ho
    obtain ⟨o0, hmem, rfl⟩ := ho
    exact callbackInv_finishOp ok o0 (ih o0 hmem)
  | cancel =>
    intro o ho
    simp only [Dispatcher.cancelPending, List.mem_map] at ho
    obtain ⟨o0, hmem, rfl⟩ := ho
    exact callbackInv_cancelOp o0 (ih o0 hmem)

/-- Claim C8: in every reachable dispatcher state, every operation's
`onComplete` callback has been invoked exactly once if the operation has
reached a terminal state (`Succeeded`, `Failed` or `Cancelled`), and has
never been invoked while the operation is not yet terminal — so over the
whole lifecycle the callback fires exactly once, at the transition into
the terminal state. -/
theorem onComplete_exactly_once (d : Dispatcher) (h : Reachable d) :
    ∀ o ∈ d.ops, (o.state.isTerminal = true → o.callbackCount = 1) ∧
      (o.state.isTerminal = false → o.callbackCount = 0) := by
  induction h with
  | init => intro o ho; simp at ho
  | step hr hs ih => exact step_callbackInv _ _ hs ih

/-- The C8 witness state: one operation submitted, started, and finished
successfully. -/
def exampleFinished : Dispatcher :=
  (((Dispatcher.mk []).submit 0).startNext).finishRunning true

/-- Witness for C8 on the reachable state `exampleFinished`, whose single
operation is terminal with its callback invoked exactly once. -/
theorem onComplete_exactly_once_witness :
    Reachable exampleFinished ∧
    (⟨0, OpState.Succeeded, true, 1⟩ : Operation) ∈ exampleFinished.ops ∧
    (((⟨0, OpState.Succeeded, true, 1⟩ : Operation).state.isTerminal = true →
        (⟨0, OpState.Succeeded, true, 1⟩ : Operation).callbackCount = 1) ∧
      ((⟨0, OpState.Succeeded, true, 1⟩ : Operation).state.isTerminal = false →
        (⟨0, OpState.Succeeded, true, 1⟩ : Operation).callbackCount = 0)) :=
  have hr : Reachable exampleFinished :=
    Reachable.step (Reachable.step (Reachable.step Reachable.init
      (Step.submit _ 0)) (Step.start _)) (Step.finish _ true)
  ⟨hr, by decide,
    onComplete_exactly_once exampleFinished hr _ (by decide)⟩

/-! ## Module facade (C9, C10): `GitSourceControlModule.h` -/

/-- From the source header (lines 143-147): the module owns one provider
and one settings member. The provider and settings class contents are
outside the visible source, so they are type parameters here; the claims
depend only on which member each accessor returns. -/
structure FGitSourceControlModule (P S : Type) where
  GitSourceControlProvider : P
  GitSourceControlSettings : S
deriving DecidableEq, Repr

/-- From the source header (lines 96-99): `GetProvider()` returns a
reference to the `GitSourceControlProvider` member; modelled as the value
paired with the (unchanged) module state. -/
def FGitSourceControlModule.GetProvider {P S : Type}
    (m : FGitSourceControlModule P S) : P × FGitSourceControlModule P S :=
  (m.GitSourceControlProvider, m)

/-- From the source header (lines 101-104): the const overload of
`GetProvider()`, returning the same member. -/
def FGitSourceControlModule.GetProviderConst {P S : Type}
    (m : FGitSourceControlModule P S) : P × FGitSourceControlModule P S :=
  (m.GitSourceControlProvider, m)

/-- From the source header (lines 82-85): `AccessSettings()` returns a
reference to the `GitSourceControlSettings` member. -/
def FGitSourceControlModule.AccessSettings {P S : Type}
    (m : FGitSourceControlModule P S) : S × FGitSourceControlModule P S :=
  (m.GitSourceControlSettings, m)

/-- From the source header (lines 87-90): the const overload of
`AccessSettings()`, returning the same member. -/
def FGitSourceControlModule.AccessSettingsConst {P S : Type}
    (m : FGitSourceControlModule P S) : S × FGitSourceControlModule P S :=
  (m.GitSourceControlSettings, m)

/-- The module-manager state seen by `Get` and `GetThreadSafe`: whether
the "GitSourceControl" module is currently loaded, and if so its
instance. -/
structure FModuleManager (P S : Type) where
  gitModule : Option (FGitSourceControlModule P S)
deriving DecidableEq, Repr

/-- From the source header (line 124): `FModuleManager::GetModule`
returns the loaded module or null, never loading it. -/
def FModuleManager.GetModule {P S : Type} (mm : FModuleManager P S) :
    Option (FGitSourceControlModule P S) :=
  mm.gitModule

/-- `FModuleManager::LoadModuleChecked` as used by the header (line 119):
returns the loaded module, loading a fresh instance on demand when the
module is absent. -/
def FModuleManager.LoadModuleChecked {P S : Type} (mm : FModuleManager P S)
    (fresh : FGitSourceControlModule P S) :
    FGitSourceControlModule P S × FModuleManager P S :=
  match mm.gitModule with
  | some m => (m, mm)
  | none => (fresh, ⟨some fresh⟩)

/-- From the source header (lines 117-120): `Get()` loads the module on
demand and always yields the module instance. -/
def FGitSourceControlModule.Get {P S : Type} (mm : FModuleManager P S)
    (fresh : FGitSourceControlModule P S) :
    FGitSourceControlModule P S × FModuleManager P S :=
  mm.LoadModuleChecked fresh

/-- From the source header (lines 122-132): `GetThreadSafe()` looks the
module up without loading it; when it is absent it runs
`check(!IsInGameThread())` and returns null. The final component records
whether that assertion passes (`true` on the loaded path, where no
assertion runs). -/
def FGitSourceControlModule.GetThreadSafe {P S : Type}
    (mm : FModuleManager P S) (isInGameThread : Bool) :
    Option (FGitSourceControlModule P S) × FModuleManager P S × Bool :=
  match mm.GetModule with
  | none => (none, mm, !isInGameThread)
  | some m => (some m, mm, true)

/-- Claim C9: when the module is not loaded, `GetThreadSafe` returns null
without loading it, and its assertion passes exactly when the caller is
not the game thread; when the module is loaded it returns the loaded
instance. `Get`, in contrast, loads the module on demand and always
yields an instance. -/
theorem getThreadSafe_no_load {P S : Type} (mm : FModuleManager P S)
    (gt : Bool) (fresh : FGitSourceControlModule P S) :
    (mm.gitModule = none →
      (FGitSourceControlModule.GetThreadSafe mm gt).1 = none ∧
      (FGitSourceControlModule.GetThreadSafe mm gt).2.1 = mm ∧
      ((FGitSourceControlModule.GetThreadSafe mm gt).2.2 = true ↔
        gt = false)) ∧
    (∀ m, mm.gitModule = some m →
      (FGitSourceControlModule.GetThreadSafe mm gt).1 = some m ∧
      (FGitSourceControlModule.GetThreadSafe mm gt).2.1 = mm) ∧
    (mm.gitModule = none →
      (FGitSourceControlModule.Get mm fresh).1 = fresh ∧
      (FGitSourceControlModule.Get mm fresh).2.gitModule = some fresh) ∧
    (∀ m, mm.gitModule = some m →
      (FGitSourceControlModule.Get mm fresh).1 = m ∧
      (FGitSourceControlModule.Get mm fresh).2 = mm) := by
  refine ⟨?_, ?_, ?_, ?_⟩
  · intro hm
    refine ⟨?_, ?_, ?_⟩
    · simp [FGitSourceControlModule.GetThreadSafe, FModuleManager.GetModule,
        hm]
    · simp [FGitSourceControlModule.GetThreadSafe, FModuleManager.GetModule,
        hm]
    · cases gt <;>
        simp [FGitSourceControlModule.GetThreadSafe, FModuleManager.GetModule,
          hm]
  · intro m hm
    constructor <;>
      simp [FGitSourceControlModule.GetThreadSafe, FModuleManager.GetModule,
        hm]
  · intro hm
    constructor <;>
      simp [FGitSourceControlModule.Get, FModuleManager.LoadModuleChecked, hm]
  · intro m hm
    constructor <;>
      simp [FGitSourceControlModule.Get, FModuleManager.LoadModuleChecked, hm]

/-- Witness for C9 at concrete module-manager states (unloaded queried
from the game thread, and loaded). -/
theorem getThreadSafe_no_load_witness :
    ((FGitSourceControlModule.GetThreadSafe
        (⟨none⟩ : FModuleManager Nat Nat) true).1 = none ∧
      (FGitSourceControlModule.GetThreadSafe
        (⟨none⟩ : FModuleManager Nat Nat) true).2.1 = ⟨none⟩ ∧
      ((FGitSourceControlModule.GetThreadSafe
        (⟨none⟩ : FModuleManager Nat Nat) true).2.2 = true ↔
        true = false)) ∧
    ((FGitSourceControlModule.Get (⟨none⟩ : FModuleManager Nat Nat)
        ⟨0, 0⟩).1 = ⟨0, 0⟩ ∧
      (FGitSourceControlModule.Get (⟨none⟩ : FModuleManager Nat Nat)
        ⟨0, 0⟩).2.gitModule = some ⟨0, 0⟩) ∧
    (FGitSourceControlModule.GetThreadSafe
        (⟨some ⟨1, 2⟩⟩ : FModuleManager Nat Nat) false).1 = some ⟨1, 2⟩ :=
  ⟨(getThreadSafe_no_load (⟨none⟩ : FModuleManager Nat Nat) true ⟨0, 0⟩).1 rfl,
   (getThreadSafe_no_load (⟨none⟩ : FModuleManager Nat Nat) true
      ⟨0, 0⟩).2.2.1 rfl,
   ((getThreadSafe_no_load (⟨some ⟨1, 2⟩⟩ : FModuleManager Nat Nat) false
      ⟨0, 0⟩).2.1 ⟨1, 2⟩ rfl).1⟩

/-- Claim C10: the module owns exactly one provider and one settings
object: both overloads of `GetProvider` return the one
`GitSourceControlProvider` member, both overloads of `AccessSettings`
return the one `GitSourceControlSettings` member, no call changes the
module state, and repeated calls return the same instance. -/
theorem module_single_provider_settings {P S : Type}
    (m : FGitSourceControlModule P S) :
    (m.GetProvider).1 = m.GitSourceControlProvider ∧
    (m.GetProvider).2 = m ∧
    (m.GetProviderConst).1 = m.GitSourceControlProvider ∧
    (m.GetProviderConst).2 = m ∧
    (m.AccessSettings).1 = m.GitSourceControlSettings ∧
    (m.AccessSettings).2 = m ∧
    (m.AccessSettingsConst).1 = m.GitSourceControlSettings ∧
    (m.AccessSettingsConst).2 = m ∧
    ((m.GetProvider).2.GetProviderConst).1 = (m.GetProvider).1 ∧
    ((m.AccessSettings).2.AccessSettingsConst).1 = (m.AccessSettings).1 :=
  ⟨rfl, rfl, rfl, rfl, rfl, rfl, rfl, rfl, rfl, rfl⟩

end GitSourceControl
